import Mathlib

/-!
Verification of the COBOL comment-pattern module
(`src/modulos/patrones_commentarios_cbl.py`).

Python strings are modelled as Lean `String`s indexed through their
character list; Python's whitespace handling (`strip`, `rstrip`,
`upper`, `splitlines`, `replace(" ", "")`, substring containment) is
embedded over the ASCII whitespace set, which covers every character
the module's logic touches.
-/

/-- The ASCII whitespace characters stripped by Python `str.strip()` /
`str.rstrip()`. -/
def isPySpace (c : Char) : Bool :=
  c == ' ' || c == '\t' || c == '\n' || c == '\r' || c == '\x0b' || c == '\x0c'

/-- Python `s.strip()`: drop whitespace from both ends. -/
def pyStrip (s : String) : String :=
  String.mk (((s.toList.dropWhile isPySpace).reverse.dropWhile isPySpace).reverse)

/-- Python `s.rstrip()`: drop whitespace from the right end only. -/
def pyRstrip (s : String) : String :=
  String.mk ((s.toList.reverse.dropWhile isPySpace).reverse)

/-- Python `s.upper()` (ASCII letters). -/
def pyUpper (s : String) : String :=
  String.mk (s.toList.map Char.toUpper)

/-- Python `s.replace(" ", "")`: remove exactly the space character. -/
def removeSpaces (s : String) : String :=
  String.mk (s.toList.filter (fun c => !(c == ' ')))

/-- Python `s[i:]`. -/
def sdrop (i : Nat) (s : String) : String :=
  String.mk (s.toList.drop i)

/-- Python `s[i]` as a checked access: `none` models `IndexError`. -/
def charAt? (s : String) (i : Nat) : Option Char :=
  s.toList.get? i

/-- Auxiliary for `pySplitlines`: split a character list at the line
boundaries `\r\n`, `\r`, `\n`, accumulating the current line reversed. -/
def splitlinesAux : List Char → List Char → List String
  | [], acc => if acc.isEmpty then [] else [String.mk acc.reverse]
  | '\r' :: '\n' :: rest, acc => String.mk acc.reverse :: splitlinesAux rest []
  | '\r' :: rest, acc => String.mk acc.reverse :: splitlinesAux rest []
  | '\n' :: rest, acc => String.mk acc.reverse :: splitlinesAux rest []
  | c :: rest, acc => splitlinesAux rest (c :: acc)

/-- Python `s.splitlines()` over the `\n` / `\r` / `\r\n` terminators. -/
def pySplitlines (s : String) : List String :=
  splitlinesAux s.toList []

/-- Python `needle in hay` for strings: contiguous-substring containment,
checked position by position. -/
def containsSub (needle : List Char) : List Char → Bool
  | [] => needle.isEmpty
  | c :: rest => needle.isPrefixOf (c :: rest) || containsSub needle rest

/-- Embeds `"\n".join(lines)`. -/
def joinNL (lines : List String) : String :=
  String.intercalate "\n" lines

/-! ## The embedded module -/

/-- Embeds `es_separador(linea)`, the COBOL separator-line detector.
Embeds: `if len(linea) < 10: return False`;
`if linea[6] != '*': return False`;
`contenido = linea[7:].strip().replace(" ", "")`;
`return len(contenido) >= 5 and len(set(contenido)) == 1`. -/
def es_separador (linea : String) : Bool :=
  if linea.length < 10 then false
  else if !(charAt? linea 6 == some '*') then false
  else
    let contenido := removeSpaces (pyStrip (sdrop 7 linea))
    decide (5 ≤ contenido.length) && decide (contenido.toList.toFinset.card = 1)

/-- The comment-line test `len(linea) > 6 and linea[6] == '*'` shared by the
three collecting/counting loops. -/
def es_comentada (linea : String) : Bool :=
  decide (6 < linea.length) && (charAt? linea 6 == some '*')

/-- The collecting loop `for i, linea in enumerate(lineas)` shared by
`obtener_lineas_comentadas` and `obtener_lineas_comentadas_con_display`:
append `(i + 1, linea.rstrip())` whenever the line passes predicate `p`. -/
def collectFrom (p : String → Bool) (i : Nat) : List String → List (Nat × String)
  | [] => []
  | l :: ls =>
    if p l then (i + 1, pyRstrip l) :: collectFrom p (i + 1) ls
    else collectFrom p (i + 1) ls

/-- Embeds `obtener_lineas_comentadas(lineas)`: pairs `(i + 1, linea.rstrip())` for
lines with `(len(linea) > 6 and linea[6] == '*') and not es_separador(linea)`. -/
def obtener_lineas_comentadas (lineas : List String) : List (Nat × String) :=
  collectFrom (fun l => es_comentada l && !(es_separador l)) 0 lineas

/-- Embeds `obtener_num_lineas_comentadas(lineas)`: counts lines with
`len(linea) > 6 and linea[6] == '*'`. -/
def obtener_num_lineas_comentadas (lineas : List String) : Nat :=
  lineas.countP es_comentada

/-- Embeds `es_patron_etiqueta(linea)`: `re.match(r"^\*\*[A-Za-z]\*$", linea.strip())`,
i.e. the stripped line is exactly marker, marker, one ASCII letter, marker. -/
def es_patron_etiqueta (linea : String) : Bool :=
  match (pyStrip linea).toList with
  | ['*', '*', c, '*'] => c.isAlpha
  | _ => false

/-- The loop of `ext_bloq_comentados_patron_etiqueta`, with the mutable
state `(bloques, bloque_actual, dentro_bloque)` passed explicitly. -/
def extLoop : List String → List String → List String → Bool → List String
  | [], bloques, _, _ => bloques
  | l :: ls, bloques, actual, dentro =>
    if es_patron_etiqueta l then
      if dentro then extLoop ls (bloques ++ [joinNL (actual ++ [l])]) [] false
      else extLoop ls bloques (actual ++ [l]) true
    else if dentro then extLoop ls bloques (actual ++ [l]) dentro
    else extLoop ls bloques actual dentro

/-- The block extractor run on an already-split line list. -/
def ext_bloq_lineas (lineas : List String) : List String :=
  extLoop lineas [] [] false

/-- Embeds `ext_bloq_comentados_patron_etiqueta(texto)`: split the text into lines
and run the two-state block-extraction loop. -/
def ext_bloq_comentados_patron_etiqueta (texto : String) : List String :=
  ext_bloq_lineas (pySplitlines texto)

/-- The token test of `obtener_lineas_comentadas_con_display`:
`'DISPLAY' in linea.upper()`. -/
def contieneDisplay (linea : String) : Bool :=
  containsSub "DISPLAY".toList (pyUpper linea).toList

/-- Embeds `obtener_lineas_comentadas_con_display(lineas)`: pairs
`(i + 1, linea.rstrip())` for lines with
`len(linea) > 6 and linea[6] == '*' and 'DISPLAY' in linea.upper()`. -/
def obtener_lineas_comentadas_con_display (lineas : List String) : List (Nat × String) :=
  collectFrom (fun l => es_comentada l && contieneDisplay l) 0 lineas

/-! ## Spec-side definitions

These follow the wording of the specification, to be compared with the
definitions embedded from the source. -/

/-- Remove every whitespace character, as in the spec's phrase
"removes all interior whitespace". -/
def removeAllWhitespace (s : String) : String :=
  String.mk (s.toList.filter (fun c => !(isPySpace c)))

/-- Modelled from the spec: the separator predicate as the claim words it,
with the post-offset-7 substring "trimmed and with all interior whitespace
removed" (the source instead removes only the space character). -/
def es_separador_specClaim (linea : String) : Bool :=
  if linea.length < 10 then false
  else if !(charAt? linea 6 == some '*') then false
  else
    let contenido := removeAllWhitespace (pyStrip (sdrop 7 linea))
    decide (5 ≤ contenido.length) && decide (contenido.toList.toFinset.card = 1)

/-- Modelled from the spec: strip only trailing line-terminator characters,
as in "original line content with only trailing line-terminator characters
stripped" (the source instead strips all trailing whitespace). -/
def specRstripNL (s : String) : String :=
  String.mk ((s.toList.reverse.dropWhile (fun c => c == '\n' || c == '\r')).reverse)

/-- Split a line list at its first label-pattern line: the non-label lines
before it, the label line, and the remainder. -/
def splitAtLabel : List String → Option (List String × String × List String)
  | [] => none
  | l :: ls =>
    if es_patron_etiqueta l then some ([], l, ls)
    else
      match splitAtLabel ls with
      | none => none
      | some (pre, lab, rest) => some (l :: pre, lab, rest)

theorem splitAtLabel_decomp : ∀ (ls pre : List String) (lab : String)
    (rest : List String), splitAtLabel ls = some (pre, lab, rest) →
    ls = pre ++ lab :: rest := by
  intro ls
  induction ls with
  | nil => intro pre lab rest h; simp [splitAtLabel] at h
  | cons l t ih =>
    intro pre lab rest h
    by_cases hl : es_patron_etiqueta l
    · simp [splitAtLabel, hl] at h
      obtain ⟨h1, h2, h3⟩ := h
      simp [← h1, ← h2, ← h3]
    · simp [splitAtLabel, hl] at h
      rcases ht : splitAtLabel t with _ | ⟨pre', lab', rest'⟩
      · rw [ht] at h; simp at h
      · rw [ht] at h
        simp at h
        obtain ⟨h1, h2, h3⟩ := h
        have := ih pre' lab' rest' ht
        rw [← h1, ← h2, ← h3]
        simp [this]

theorem splitAtLabel_rest_lt : ∀ (ls pre : List String) (lab : String)
    (rest : List String), splitAtLabel ls = some (pre, lab, rest) →
    rest.length < ls.length := by
  intro ls pre lab rest h
  have := splitAtLabel_decomp ls pre lab rest h
  subst this
  simp
  omega

/-- The spec's view of the block extractor: skip to the first label line,
pair it with the next label line, emit the inclusive newline-join, recurse
on the remainder; a dangling opening label yields nothing. -/
def specBlocks (ls : List String) : List String :=
  match h1 : splitAtLabel ls with
  | none => []
  | some (_, op, after) =>
    match h2 : splitAtLabel after with
    | none => []
    | some (mid, cl, rest) =>
      joinNL (op :: (mid ++ [cl])) :: specBlocks rest
termination_by ls.length
decreasing_by
  have ha := splitAtLabel_rest_lt ls _ _ _ h1
  have hb := splitAtLabel_rest_lt after _ _ _ h2
  omega

/-- The spec's view of the loop state while inside a block with pending
buffer `actual`: the next label line closes the block, then extraction
restarts; no further label line means nothing more is emitted. -/
def tailSpec (actual : List String) (ls : List String) : List String :=
  match splitAtLabel ls with
  | none => []
  | some (mid, cl, rest) => joinNL (actual ++ mid ++ [cl]) :: specBlocks rest

theorem specBlocks_eq_none (ls : List String) (h : splitAtLabel ls = none) :
    specBlocks ls = [] := by
  rw [specBlocks]
  split
  · rfl
  · rename_i p op after heq
    rw [h] at heq; cases heq

theorem specBlocks_eq_some (ls p : List String) (op : String) (after : List String)
    (h : splitAtLabel ls = some (p, op, after)) :
    specBlocks ls = (match splitAtLabel after with
      | none => []
      | some (mid, cl, rest) => joinNL (op :: (mid ++ [cl])) :: specBlocks rest) := by
  rw [specBlocks]
  split
  · rename_i heq; rw [h] at heq; cases heq
  · rename_i p' op' after' heq
    rw [h] at heq
    injection heq with heq2
    injection heq2 with e1 e2
    injection e2 with e3 e4
    subst e3; subst e4
    split
    · rename_i heq3; rw [heq3]
    · rename_i mid cl rest heq3; rw [heq3]

theorem splitAtLabel_cons_label (l : String) (t : List String)
    (hl : es_patron_etiqueta l = true) : splitAtLabel (l :: t) = some ([], l, t) := by
  simp [splitAtLabel, hl]

theorem specBlocks_nil : specBlocks [] = [] := by
  exact specBlocks_eq_none [] rfl

theorem tailSpec_nil (actual : List String) : tailSpec actual [] = [] := by
  simp [tailSpec, splitAtLabel]

theorem specBlocks_cons_label (l : String) (t : List String)
    (hl : es_patron_etiqueta l = true) : specBlocks (l :: t) = tailSpec [l] t := by
  rw [specBlocks_eq_some (l :: t) [] l t (splitAtLabel_cons_label l t hl)]
  rcases ht : splitAtLabel t with _ | ⟨mid, cl, rest⟩
  · simp [tailSpec, ht]
  · simp [tailSpec, ht]

theorem specBlocks_cons_nonlabel (l : String) (t : List String)
    (hl : es_patron_etiqueta l = false) : specBlocks (l :: t) = specBlocks t := by
  rcases ht : splitAtLabel t with _ | ⟨pre, lab, rest⟩
  · have h1 : splitAtLabel (l :: t) = none := by
      simp [splitAtLabel, hl, ht]
    rw [specBlocks_eq_none _ h1, specBlocks_eq_none _ ht]
  · have h1 : splitAtLabel (l :: t) = some (l :: pre, lab, rest) := by
      simp [splitAtLabel, hl, ht]
    rw [specBlocks_eq_some _ _ _ _ h1, specBlocks_eq_some _ _ _ _ ht]

theorem tailSpec_cons_label (actual : List String) (l : String) (t : List String)
    (hl : es_patron_etiqueta l = true) :
    tailSpec actual (l :: t) = joinNL (actual ++ [l]) :: specBlocks t := by
  simp [tailSpec, splitAtLabel, hl]

theorem tailSpec_cons_nonlabel (actual : List String) (l : String) (t : List String)
    (hl : es_patron_etiqueta l = false) :
    tailSpec actual (l :: t) = tailSpec (actual ++ [l]) t := by
  simp only [tailSpec, splitAtLabel, hl, Bool.false_eq_true, if_false]
  rcases ht : splitAtLabel t with _ | ⟨mid, cl, rest⟩
  · simp
  · simp

/-- Joint loop invariant: from a clean state the loop appends exactly the
spec's blocks; from an inside-a-block state with pending buffer `actual`
it appends exactly the spec's view of the remaining input. -/
theorem extLoop_spec (n : Nat) : ∀ (ls : List String), ls.length ≤ n →
    ∀ (bl actual : List String),
    extLoop ls bl [] false = bl ++ specBlocks ls ∧
    extLoop ls bl actual true = bl ++ tailSpec actual ls := by
  induction n with
  | zero =>
    intro ls hls bl actual
    have hnil : ls = [] := List.length_eq_zero.mp (Nat.le_zero.mp hls)
    subst hnil
    exact ⟨by simp [extLoop, specBlocks_nil], by simp [extLoop, tailSpec_nil]⟩
  | succ n ih =>
    intro ls hls bl actual
    cases ls with
    | nil => exact ⟨by simp [extLoop, specBlocks_nil], by simp [extLoop, tailSpec_nil]⟩
    | cons l t =>
      have ht : t.length ≤ n := by
        simp only [List.length_cons] at hls; omega
      by_cases hl : es_patron_etiqueta l
      · constructor
        · simp only [extLoop, hl, if_pos, Bool.false_eq_true, if_false, List.nil_append]
          rw [(ih t ht bl [l]).2, specBlocks_cons_label l t hl]
        · simp only [extLoop, hl, if_pos]
          rw [(ih t ht (bl ++ [joinNL (actual ++ [l])]) []).1,
            tailSpec_cons_label actual l t hl]
          simp
      · have hl' : es_patron_etiqueta l = false := by
          simpa using hl
        constructor
        · simp only [extLoop, hl', Bool.false_eq_true, if_false]
          rw [(ih t ht bl actual).1, specBlocks_cons_nonlabel l t hl']
        · simp only [extLoop, hl', Bool.false_eq_true, if_false, if_pos]
          rw [(ih t ht bl (actual ++ [l])).2, tailSpec_cons_nonlabel actual l t hl']

/-- The block extractor refines the spec's matched-pairs view. -/
theorem ext_bloq_lineas_eq_specBlocks (ls : List String) :
    ext_bloq_lineas ls = specBlocks ls := by
  have := (extLoop_spec ls.length ls (Nat.le_refl _) [] []).1
  simpa [ext_bloq_lineas] using this

/-! ## The collecting loops -/

/-- Membership in a collecting loop: exactly the lines passing the predicate
appear, paired with their enumeration position shifted by the start index. -/
theorem mem_collectFrom (p : String → Bool) : ∀ (ls : List String) (i n : Nat)
    (c : String), (n, c) ∈ collectFrom p i ls ↔
    ∃ j l, ls.get? j = some l ∧ p l = true ∧ n = i + j + 1 ∧ c = pyRstrip l := by
  intro ls
  induction ls with
  | nil => intro i n c; simp [collectFrom]
  | cons l t ih =>
    intro i n c
    by_cases hp : p l
    · simp only [collectFrom, hp, if_pos, List.mem_cons]
      constructor
      · rintro (h | h)
        · rw [Prod.mk.injEq] at h
          exact ⟨0, l, by simp, hp, by omega, h.2⟩
        · obtain ⟨j, l', hg, hpl, hn, hc⟩ := (ih (i + 1) n c).mp h
          exact ⟨j + 1, l', by simpa using hg, hpl, by omega, hc⟩
      · rintro ⟨j, l', hg, hpl, hn, hc⟩
        cases j with
        | zero =>
          left
          rw [List.get?_cons_zero] at hg
          injection hg with hg
          subst hg
          rw [Prod.mk.injEq]
          exact ⟨by omega, hc⟩
        | succ j =>
          right
          rw [List.get?_cons_succ] at hg
          exact (ih (i + 1) n c).mpr ⟨j, l', hg, hpl, by omega, hc⟩
    · have hp' : p l = false := by simpa using hp
      simp only [collectFrom, hp', Bool.false_eq_true, if_false]
      rw [ih (i + 1) n c]
      constructor
      · rintro ⟨j, l', hg, hpl, hn, hc⟩
        exact ⟨j + 1, l', by simpa using hg, hpl, by omega, hc⟩
      · rintro ⟨j, l', hg, hpl, hn, hc⟩
        cases j with
        | zero =>
          rw [List.get?_cons_zero] at hg
          injection hg with hg
          subst hg
          rw [hp'] at hpl
          cases hpl
        | succ j =>
          rw [List.get?_cons_succ] at hg
          exact ⟨j, l', hg, hpl, by omega, hc⟩

/-- Line numbers in a collecting loop exceed the start index. -/
theorem collectFrom_fst_gt (p : String → Bool) (ls : List String) (i : Nat) :
    ∀ q ∈ collectFrom p i ls, i < q.1 := by
  intro q hq
  obtain ⟨n, c⟩ := q
  obtain ⟨j, l, _, _, hn, _⟩ := (mem_collectFrom p ls i n c).mp hq
  simp only
  omega

/-- A collecting loop emits line numbers in strictly increasing order. -/
theorem collectFrom_pairwise (p : String → Bool) : ∀ (ls : List String) (i : Nat),
    (collectFrom p i ls).Pairwise (fun a b => a.1 < b.1) := by
  intro ls
  induction ls with
  | nil => intro i; simp [collectFrom]
  | cons l t ih =>
    intro i
    by_cases hp : p l
    · simp only [collectFrom, hp, if_pos]
      refine List.Pairwise.cons ?_ (ih (i + 1))
      intro q hq
      exact collectFrom_fst_gt p t (i + 1) q hq
    · have hp' : p l = false := by simpa using hp
      simp only [collectFrom, hp', Bool.false_eq_true, if_false]
      exact ih (i + 1)

/-- A collecting loop keeps exactly as many lines as pass the predicate. -/
theorem collectFrom_length (p : String → Bool) : ∀ (ls : List String) (i : Nat),
    (collectFrom p i ls).length = ls.countP p := by
  intro ls
  induction ls with
  | nil => intro i; simp [collectFrom]
  | cons l t ih =>
    intro i
    by_cases hp : p l
    · simp [collectFrom, hp, ih (i + 1), List.countP_cons]
    · have hp' : p l = false := by simpa using hp
      simp [collectFrom, hp', ih (i + 1), List.countP_cons]

/-! ## Further extractor lemmas -/

/-- Lines that are not label patterns never add a block, whatever the state:
the pending buffer only grows and is dropped when the input ends. -/
theorem extLoop_nolabel : ∀ (extra : List String),
    (∀ l ∈ extra, es_patron_etiqueta l = false) →
    ∀ (bl actual : List String) (dentro : Bool), extLoop extra bl actual dentro = bl := by
  intro extra
  induction extra with
  | nil => intro _ bl actual dentro; rfl
  | cons l t ih =>
    intro h bl actual dentro
    have hl : es_patron_etiqueta l = false := h l (List.mem_cons_self l t)
    have ht : ∀ x ∈ t, es_patron_etiqueta x = false :=
      fun x hx => h x (List.mem_cons_of_mem l hx)
    cases dentro
    · simpa [extLoop, hl] using ih ht bl actual false
    · simpa [extLoop, hl] using ih ht bl (actual ++ [l]) true

/-- Splitting the loop at a list append: the tail run starts from the
blocks produced by the head run, in some buffer state. -/
theorem extLoop_append : ∀ (ls extra bl actual : List String) (dentro : Bool),
    ∃ actual2 dentro2, extLoop (ls ++ extra) bl actual dentro =
      extLoop extra (extLoop ls bl actual dentro) actual2 dentro2 := by
  intro ls
  induction ls with
  | nil => intro extra bl actual dentro; exact ⟨actual, dentro, rfl⟩
  | cons l t ih =>
    intro extra bl actual dentro
    by_cases hl : es_patron_etiqueta l
    · cases dentro
      · simpa [extLoop, hl] using ih extra bl (actual ++ [l]) true
      · simpa [extLoop, hl] using ih extra (bl ++ [joinNL (actual ++ [l])]) [] false
    · have hl' : es_patron_etiqueta l = false := by simpa using hl
      cases dentro
      · simpa [extLoop, hl'] using ih extra bl actual false
      · simpa [extLoop, hl'] using ih extra bl (actual ++ [l]) true

/-- A label-free suffix never changes the extractor's output: whatever is
pending when the input ends is discarded. -/
theorem ext_bloq_lineas_append_nolabel (ls extra : List String)
    (h : ∀ l ∈ extra, es_patron_etiqueta l = false) :
    ext_bloq_lineas (ls ++ extra) = ext_bloq_lineas ls := by
  obtain ⟨a2, d2, happ⟩ := extLoop_append ls extra [] [] false
  unfold ext_bloq_lineas
  rw [happ, extLoop_nolabel extra h]

/-- A failed split means no line was a label pattern. -/
theorem splitAtLabel_none : ∀ (ls : List String), splitAtLabel ls = none →
    ∀ l ∈ ls, es_patron_etiqueta l = false := by
  intro ls
  induction ls with
  | nil => intro _ l hl; cases hl
  | cons l t ih =>
    intro h x hx
    by_cases hl : es_patron_etiqueta l
    · simp [splitAtLabel, hl] at h
    · have hl' : es_patron_etiqueta l = false := by simpa using hl
      simp only [splitAtLabel, hl', Bool.false_eq_true, if_false] at h
      rcases ht : splitAtLabel t with _ | ⟨pre, lab, rest⟩
      · rcases List.mem_cons.mp hx with rfl | hx'
        · exact hl'
        · exact ih ht x hx'
      · rw [ht] at h; simp at h

/-- A successful split returns a label-pattern line preceded only by
non-label lines. -/
theorem splitAtLabel_found : ∀ (ls pre : List String) (lab : String)
    (rest : List String), splitAtLabel ls = some (pre, lab, rest) →
    es_patron_etiqueta lab = true ∧ ∀ l ∈ pre, es_patron_etiqueta l = false := by
  intro ls
  induction ls with
  | nil => intro pre lab rest h; simp [splitAtLabel] at h
  | cons l t ih =>
    intro pre lab rest h
    by_cases hl : es_patron_etiqueta l
    · simp [splitAtLabel, hl] at h
      obtain ⟨h1, h2, _⟩ := h
      subst h1
      subst h2
      exact ⟨hl, fun x hx => absurd hx (List.not_mem_nil x)⟩
    · have hl' : es_patron_etiqueta l = false := by simpa using hl
      simp only [splitAtLabel, hl', Bool.false_eq_true, if_false] at h
      rcases ht : splitAtLabel t with _ | ⟨pre', lab', rest'⟩
      · rw [ht] at h; simp at h
      · rw [ht] at h
        simp at h
        obtain ⟨h1, h2, _⟩ := h
        obtain ⟨hlab, hpre⟩ := ih pre' lab' rest' ht
        subst h1
        subst h2
        refine ⟨hlab, ?_⟩
        intro x hx
        rcases List.mem_cons.mp hx with rfl | hx'
        · exact hl'
        · exact hpre x hx'

/-- The spec's block list pairs label lines two by two: its length is the
number of label-pattern lines halved, rounding down. -/
theorem specBlocks_length (n : Nat) : ∀ (ls : List String), ls.length ≤ n →
    (specBlocks ls).length = ls.countP es_patron_etiqueta / 2 := by
  induction n with
  | zero =>
    intro ls hls
    have hnil : ls = [] := List.length_eq_zero.mp (Nat.le_zero.mp hls)
    subst hnil
    simp [specBlocks_nil]
  | succ n ih =>
    intro ls hls
    rcases h1 : splitAtLabel ls with _ | ⟨pre, op, after⟩
    · rw [specBlocks_eq_none ls h1]
      have hz : ls.countP es_patron_etiqueta = 0 := by
        rw [List.countP_eq_zero]
        intro l hl
        simp [splitAtLabel_none ls h1 l hl]
      simp [hz]
    · have hdec := splitAtLabel_decomp ls pre op after h1
      obtain ⟨hop, hpre⟩ := splitAtLabel_found ls pre op after h1
      have hpre0 : pre.countP es_patron_etiqueta = 0 := by
        rw [List.countP_eq_zero]
        intro l hl
        simp [hpre l hl]
      rw [specBlocks_eq_some ls pre op after h1]
      rcases h2 : splitAtLabel after with _ | ⟨mid, cl, rest⟩
      · have hafter0 : after.countP es_patron_etiqueta = 0 := by
          rw [List.countP_eq_zero]
          intro l hl
          simp [splitAtLabel_none after h2 l hl]
        subst hdec
        simp [List.countP_append, List.countP_cons, hpre0, hafter0, hop]
      · have hdec2 := splitAtLabel_decomp after mid cl rest h2
        obtain ⟨hcl, hmid⟩ := splitAtLabel_found after mid cl rest h2
        have hmid0 : mid.countP es_patron_etiqueta = 0 := by
          rw [List.countP_eq_zero]
          intro l hl
          simp [hmid l hl]
        have hrest : rest.length ≤ n := by
          subst hdec2
          subst hdec
          simp only [List.length_append, List.length_cons] at hls
          omega
        have hlen := ih rest hrest
        subst hdec2
        subst hdec
        simp only [List.length_cons, hlen, List.countP_append, List.countP_cons,
          hpre0, hmid0, hop, hcl, eq_self_iff_true, if_true, Nat.zero_add,
          Nat.add_zero]
        omega

/-- Every block the spec emits joins an opening label line, interior
non-label lines, and a closing label line. -/
theorem specBlocks_shape (n : Nat) : ∀ (ls : List String), ls.length ≤ n →
    ∀ b ∈ specBlocks ls, ∃ op mid cl, b = joinNL (op :: (mid ++ [cl])) ∧
      es_patron_etiqueta op = true ∧ es_patron_etiqueta cl = true ∧
      ∀ l ∈ mid, es_patron_etiqueta l = false := by
  induction n with
  | zero =>
    intro ls hls b hb
    have hnil : ls = [] := List.length_eq_zero.mp (Nat.le_zero.mp hls)
    subst hnil
    rw [specBlocks_nil] at hb
    cases hb
  | succ n ih =>
    intro ls hls b hb
    rcases h1 : splitAtLabel ls with _ | ⟨pre, op, after⟩
    · rw [specBlocks_eq_none ls h1] at hb
      cases hb
    · rw [specBlocks_eq_some ls pre op after h1] at hb
      rcases h2 : splitAtLabel after with _ | ⟨mid, cl, rest⟩
      · rw [h2] at hb
        cases hb
      · rw [h2] at hb
        obtain ⟨hop, -⟩ := splitAtLabel_found ls pre op after h1
        obtain ⟨hcl, hmid⟩ := splitAtLabel_found after mid cl rest h2
        rcases List.mem_cons.mp hb with rfl | hb'
        · exact ⟨op, mid, cl, rfl, hop, hcl, hmid⟩
        · have hdec := splitAtLabel_decomp ls pre op after h1
          have hdec2 := splitAtLabel_decomp after mid cl rest h2
          have hrest : rest.length ≤ n := by
            subst hdec2
            subst hdec
            simp only [List.length_append, List.length_cons] at hls
            omega
          exact ih rest hrest b hb'

/-! ## Characterisations of the per-line predicates -/

/-- Rebuilding a string from its character list is the identity. -/
theorem stringMk_toList (s : String) : String.mk s.toList = s := rfl

/-- Python's `len(contenido) >= 5 and len(set(contenido)) == 1` says the
character list is a replication, at least five long, of one character. -/
theorem card_one_iff_replicate (xs : List Char) :
    (5 ≤ xs.length ∧ xs.toFinset.card = 1) ↔
    ∃ c n, 5 ≤ n ∧ xs = List.replicate n c := by
  constructor
  · rintro ⟨hlen, hcard⟩
    obtain ⟨a, ha⟩ := Finset.card_eq_one.mp hcard
    refine ⟨a, xs.length, hlen, ?_⟩
    rw [List.eq_replicate_iff]
    refine ⟨rfl, ?_⟩
    intro b hb
    have hb' : b ∈ xs.toFinset := List.mem_toFinset.mpr hb
    rw [ha] at hb'
    simpa using hb'
  · rintro ⟨c, n, hn, rfl⟩
    refine ⟨by simpa using hn, ?_⟩
    rw [Finset.card_eq_one]
    refine ⟨c, ?_⟩
    ext b
    simp only [List.mem_toFinset, List.mem_replicate, Finset.mem_singleton]
    constructor
    · rintro ⟨_, rfl⟩; rfl
    · rintro rfl; exact ⟨by omega, rfl⟩

/-- The label-pattern test holds exactly when the stripped line is the
four characters marker, marker, ASCII letter, marker. -/
theorem es_patron_etiqueta_iff (s : String) : es_patron_etiqueta s = true ↔
    ∃ c, c.isAlpha = true ∧ pyStrip s = String.mk ['*', '*', c, '*'] := by
  constructor
  · intro h
    unfold es_patron_etiqueta at h
    split at h
    · rename_i c heq
      exact ⟨c, h, by rw [← stringMk_toList (pyStrip s), heq]⟩
    · cases h
  · rintro ⟨c, hc, hstrip⟩
    unfold es_patron_etiqueta
    rw [hstrip]
    simpa using hc

/-! ## Checked variants: every character access through `Option`

Python raises `IndexError` on an out-of-range `linea[6]`; the checked
variants model each such access with `charAt?`, propagating `none` for a
raise. Equality with the plain functions states the guards make every
access safe. (`es_patron_etiqueta` and the block extractor perform no
index access at all: they use only `strip`, pattern match and `join`.) -/

/-- Variant of `es_separador` with its `linea[6]` access checked. -/
def es_separador_chk (linea : String) : Option Bool :=
  if linea.length < 10 then some false
  else
    match charAt? linea 6 with
    | none => none
    | some c =>
      if !(c == '*') then some false
      else
        let contenido := removeSpaces (pyStrip (sdrop 7 linea))
        some (decide (5 ≤ contenido.length) &&
          decide (contenido.toList.toFinset.card = 1))

/-- The comment test `len(linea) > 6 and linea[6] == '*'` with the access
checked; the length guard short-circuits as Python's `and` does. -/
def es_comentada_chk (linea : String) : Option Bool :=
  if decide (6 < linea.length) then
    match charAt? linea 6 with
    | none => none
    | some c => some (c == '*')
  else some false

/-- In-range access: a length bound yields a character. -/
theorem charAt?_isSome (s : String) (i : Nat) (h : i < s.length) :
    ∃ c, charAt? s i = some c := by
  unfold charAt?
  have hlt : i < s.toList.length := h
  exact ⟨s.toList.get ⟨i, hlt⟩, List.get?_eq_get hlt⟩

theorem es_separador_chk_eq (linea : String) :
    es_separador_chk linea = some (es_separador linea) := by
  unfold es_separador_chk es_separador
  by_cases h10 : linea.length < 10
  · simp [h10]
  · obtain ⟨c, hc⟩ := charAt?_isSome linea 6 (by omega)
    simp only [h10, if_false, hc]
    by_cases hstar : c == '*'
    · have : charAt? linea 6 == some '*' := by rw [hc]; simpa using hstar
      simp [hstar, this]
    · have hne : ¬(charAt? linea 6 == some '*') = true := by
        rw [hc]
        simpa using hstar
      simp only [Bool.not_eq_true] at hstar
      simp [hstar, hne]

theorem es_comentada_chk_eq (linea : String) :
    es_comentada_chk linea = some (es_comentada linea) := by
  unfold es_comentada_chk es_comentada
  by_cases h6 : 6 < linea.length
  · obtain ⟨c, hc⟩ := charAt?_isSome linea 6 h6
    simp [h6, hc]
  · simp [h6]

/-- The collecting loop with a checked per-line predicate. -/
def collectChkFrom (p : String → Option Bool) (i : Nat) :
    List String → Option (List (Nat × String))
  | [] => some []
  | l :: ls =>
    match p l with
    | none => none
    | some b =>
      match collectChkFrom p (i + 1) ls with
      | none => none
      | some r => some (if b then (i + 1, pyRstrip l) :: r else r)

theorem collectChkFrom_eq (p : String → Option Bool) (q : String → Bool)
    (hpq : ∀ l, p l = some (q l)) : ∀ (ls : List String) (i : Nat),
    collectChkFrom p i ls = some (collectFrom q i ls) := by
  intro ls
  induction ls with
  | nil => intro i; rfl
  | cons l t ih =>
    intro i
    unfold collectChkFrom collectFrom
    rw [hpq l, ih (i + 1)]


/-- The counting loop with a checked per-line predicate. -/
def countChkFrom (p : String → Option Bool) : List String → Option Nat
  | [] => some 0
  | l :: ls =>
    match p l with
    | none => none
    | some b =>
      match countChkFrom p ls with
      | none => none
      | some t => some (if b then t + 1 else t)

theorem countChkFrom_eq (p : String → Option Bool) (q : String → Bool)
    (hpq : ∀ l, p l = some (q l)) : ∀ (ls : List String),
    countChkFrom p ls = some (ls.countP q) := by
  intro ls
  induction ls with
  | nil => rfl
  | cons l t ih =>
    unfold countChkFrom
    rw [hpq l, ih]
    by_cases hq : q l
    · simp [hq, List.countP_cons]
    · have hq' : q l = false := by simpa using hq
      simp [hq', List.countP_cons]

/-- Checked `obtener_lineas_comentadas` predicate: Python's short-circuit
`and` never calls `es_separador` unless the comment test already passed. -/
def lineaComentadaNoSep_chk (l : String) : Option Bool :=
  match es_comentada_chk l with
  | none => none
  | some false => some false
  | some true =>
    match es_separador_chk l with
    | none => none
    | some b => some (!b)

/-- Checked `obtener_lineas_comentadas`. -/
def obtener_lineas_comentadas_chk (lineas : List String) :
    Option (List (Nat × String)) :=
  collectChkFrom lineaComentadaNoSep_chk 0 lineas

/-- Checked `obtener_num_lineas_comentadas`. -/
def obtener_num_lineas_comentadas_chk (lineas : List String) : Option Nat :=
  countChkFrom es_comentada_chk lineas

/-- Checked predicate of `obtener_lineas_comentadas_con_display`. -/
def lineaComentadaDisplay_chk (l : String) : Option Bool :=
  match es_comentada_chk l with
  | none => none
  | some false => some false
  | some true => some (contieneDisplay l)

/-- Checked `obtener_lineas_comentadas_con_display`. -/
def obtener_lineas_comentadas_con_display_chk (lineas : List String) :
    Option (List (Nat × String)) :=
  collectChkFrom lineaComentadaDisplay_chk 0 lineas

theorem lineaComentadaNoSep_chk_eq (l : String) :
    lineaComentadaNoSep_chk l = some (es_comentada l && !(es_separador l)) := by
  unfold lineaComentadaNoSep_chk
  rw [es_comentada_chk_eq, es_separador_chk_eq]
  by_cases hc : es_comentada l
  · simp [hc]
  · have hc' : es_comentada l = false := by simpa using hc
    simp [hc']

theorem lineaComentadaDisplay_chk_eq (l : String) :
    lineaComentadaDisplay_chk l = some (es_comentada l && contieneDisplay l) := by
  unfold lineaComentadaDisplay_chk
  rw [es_comentada_chk_eq]
  by_cases hc : es_comentada l
  · simp [hc]
  · have hc' : es_comentada l = false := by simpa using hc
    simp [hc']

/-- Python's `in` is contiguous-substring containment. -/
theorem containsSub_iff (needle : List Char) : ∀ (hay : List Char),
    containsSub needle hay = true ↔ ∃ pre post, hay = pre ++ needle ++ post := by
  intro hay
  induction hay with
  | nil =>
    simp only [containsSub, List.isEmpty_iff]
    constructor
    · rintro rfl; exact ⟨[], [], rfl⟩
    · rintro ⟨pre, post, h⟩
      rcases List.append_eq_nil.mp h.symm with ⟨h1, h2⟩
      exact (List.append_eq_nil.mp h1).2
  | cons c rest ih =>
    simp only [containsSub, Bool.or_eq_true]
    constructor
    · rintro (h | h)
      · obtain ⟨t, ht⟩ := List.isPrefixOf_iff_prefix.mp h
        exact ⟨[], t, by simp [← ht]⟩
      · obtain ⟨pre, post, hp⟩ := ih.mp h
        exact ⟨c :: pre, post, by simp [hp]⟩
    · rintro ⟨pre, post, hp⟩
      cases pre with
      | nil =>
        left
        rw [ List.isPrefixOf_iff_prefix]
        exact ⟨post, by simpa using hp.symm⟩
      | cons d pre' =>
        right
        simp only [List.cons_append, List.cons.injEq] at hp
        exact ih.mpr ⟨pre', post, hp.2⟩

/-- Containment `'DISPLAY' in linea.upper()` holds exactly when some contiguous segment
of the line uppercases to the token: a case-insensitive substring match
over the whole line. -/
theorem contieneDisplay_iff (l : String) : contieneDisplay l = true ↔
    ∃ pre mid post, l.toList = pre ++ mid ++ post ∧
      mid.map Char.toUpper = "DISPLAY".toList := by
  unfold contieneDisplay
  rw [containsSub_iff]
  constructor
  · rintro ⟨pre', post', hp⟩
    have hmap : l.toList.map Char.toUpper = pre' ++ "DISPLAY".toList ++ post' := by
      simpa [pyUpper] using hp
    rw [List.append_assoc, List.map_eq_append_iff] at hmap
    obtain ⟨x, y, hxy, hx, hy⟩ := hmap
    rw [List.map_eq_append_iff] at hy
    obtain ⟨m, z, hmz, hm, hz⟩ := hy
    exact ⟨x, m, z, by rw [hxy, hmz, List.append_assoc], hm⟩
  · rintro ⟨pre, mid, post, hsplit, hmid⟩
    refine ⟨pre.map Char.toUpper, post.map Char.toUpper, ?_⟩
    have hd : l.data = pre ++ mid ++ post := hsplit
    show (pyUpper l).toList = _
    simp [pyUpper, hd, hmid]

/-- String equality with a list build is equality of the character lists. -/
theorem string_eq_mk_iff (s : String) (xs : List Char) :
    s = String.mk xs ↔ s.toList = xs := by
  rw [String.ext_iff]
  rfl

/-- A string is as long as its character list. -/
theorem string_length_toList (s : String) : s.length = s.toList.length := rfl

/-- The separator test holds exactly on lines of length at least ten whose
offset-6 character is the marker and whose tail, stripped and with spaces
removed, is one character repeated at least five times. -/
theorem es_separador_iff (s : String) : es_separador s = true ↔
    10 ≤ s.length ∧ charAt? s 6 = some '*' ∧
    ∃ c n, 5 ≤ n ∧
      removeSpaces (pyStrip (sdrop 7 s)) = String.mk (List.replicate n c) := by
  unfold es_separador
  by_cases h10 : s.length < 10
  · rw [if_pos h10]
    constructor
    · intro h; cases h
    · rintro ⟨h, _⟩; omega
  · rw [if_neg h10]
    by_cases hstar : charAt? s 6 = some '*'
    · have hbeq : (charAt? s 6 == some '*') = true := by
        rw [hstar]; rfl
      rw [hbeq]
      simp only [Bool.not_true, Bool.false_eq_true, if_false]
      rw [Bool.and_eq_true, decide_eq_true_iff, decide_eq_true_iff]
      have hb := card_one_iff_replicate (removeSpaces (pyStrip (sdrop 7 s))).toList
      constructor
      · rintro ⟨h5, h1⟩
        obtain ⟨c, n, hn, hxs⟩ := hb.mp ⟨by rw [← string_length_toList]; exact h5, h1⟩
        exact ⟨by omega, hstar, c, n, hn, (string_eq_mk_iff _ _).mpr hxs⟩
      · rintro ⟨_, _, c, n, hn, heq⟩
        have hxs := (string_eq_mk_iff _ _).mp heq
        obtain ⟨h5, h1⟩ := hb.mpr ⟨c, n, hn, hxs⟩
        exact ⟨by rw [string_length_toList]; exact h5, h1⟩
    · have hbeq : (charAt? s 6 == some '*') = false := by
        rcases h : charAt? s 6 with _ | c
        · rfl
        · rw [h] at hstar
          have hc : ¬(c = '*') := fun he => hstar (by rw [he])
          simpa using hc
      rw [hbeq]
      simp only [Bool.not_false, if_true]
      constructor
      · intro h; cases h
      · rintro ⟨_, hstar', _⟩; exact absurd hstar' hstar

/-- The comment count splits into the meaningful lines and the separator
lines: separators inflate the count, never the collected list. -/
theorem countP_comentada_split (lines : List String) :
    lines.countP (fun l => es_comentada l && !(es_separador l)) +
      lines.countP (fun l => es_comentada l && es_separador l) =
      lines.countP es_comentada := by
  induction lines with
  | nil => rfl
  | cons l t ih =>
    simp only [List.countP_cons]
    cases hc : es_comentada l <;> cases hs : es_separador l <;> simp <;> omega

/-! ## The claims -/

/-- Claim C1: if the input ends while the block extractor is still inside a
block, the pending buffer is discarded and never reaches the output: a
label-free suffix contributes nothing whatever the state when it starts,
and the unterminated input `"**A*\nx"` yields no block. -/
theorem C1_unterminated_pending_discarded :
    (∀ (ls extra : List String), (∀ l ∈ extra, es_patron_etiqueta l = false) →
      ext_bloq_lineas (ls ++ extra) = ext_bloq_lineas ls) ∧
    ext_bloq_comentados_patron_etiqueta "**A*\nx" = [] :=
  ⟨fun ls extra h => ext_bloq_lineas_append_nolabel ls extra h, by decide⟩

/-- Witness for C1 at a concrete unterminated input. -/
theorem C1_unterminated_pending_discarded_w :
    ext_bloq_lineas (["**A*"] ++ ["x", "y"]) = ext_bloq_lineas ["**A*"] :=
  C1_unterminated_pending_discarded.1 ["**A*"] ["x", "y"] (by decide)

/-- Claim C2, counterexample: the source removes only the space character
(`replace(" ", "")`), not all interior whitespace; on a tail whose interior
whitespace is a tab the claim's predicate holds but `es_separador` does not. -/
theorem C2_interior_whitespace_counterexample :
    es_separador_specClaim "      *A\tAAAA" = true ∧
    es_separador "      *A\tAAAA" = false := by
  constructor
  · decide
  · decide

/-- Claim C2 as amended: `es_separador(s)` is false for `length(s) < 10` or a
non-marker offset-6 character, and otherwise holds iff the substring from
offset 7, trimmed and with all interior SPACE characters (not all
whitespace) removed, is one character repeated at least five times; the two
concrete examples of the claim behave as stated. -/
theorem C2_separator_spaces_only :
    (∀ s, es_separador s = true ↔
      10 ≤ s.length ∧ charAt? s 6 = some '*' ∧
      ∃ c n, 5 ≤ n ∧
        removeSpaces (pyStrip (sdrop 7 s)) = String.mk (List.replicate n c)) ∧
    es_separador "      * AAAAAAAAAA" = true ∧
    es_separador "      * AAAA" = false :=
  ⟨es_separador_iff, by decide, by decide⟩

/-- Witness for C2 as amended at a concrete separator line. -/
theorem C2_separator_spaces_only_w :
    10 ≤ ("      *=====" : String).length ∧
    charAt? "      *=====" 6 = some '*' ∧
    ∃ c n, 5 ≤ n ∧ removeSpaces (pyStrip (sdrop 7 "      *=====")) =
      String.mk (List.replicate n c) :=
  (C2_separator_spaces_only.1 "      *=====").mp (by decide)

/-- Claim C3, counterexample: the source strips ALL trailing whitespace with
`rstrip()`; a collected line ending in a space loses that space, though the
claim says only line terminators are stripped. -/
theorem C3_trailing_whitespace_counterexample :
    obtener_lineas_comentadas ["      ** "] = [(1, "      **")] ∧
    (1, specRstripNL "      ** ") ∉ obtener_lineas_comentadas ["      ** "] := by
  constructor
  · decide
  · decide

/-- Claim C3 as amended: each pair emitted by the collect operations carries
the original line content with ALL trailing whitespace stripped (Python
`rstrip()`), not only trailing line terminators. -/
theorem C3_collect_rstrip :
    ∀ (lines : List String) (n : Nat) (c : String),
    ((n, c) ∈ obtener_lineas_comentadas lines ∨
      (n, c) ∈ obtener_lineas_comentadas_con_display lines) →
    ∃ l, lines.get? (n - 1) = some l ∧ c = pyRstrip l := by
  intro lines n c h
  rcases h with h | h
  · obtain ⟨j, l, hg, _, hn, hc⟩ :=
      (mem_collectFrom (fun l => es_comentada l && !(es_separador l))
        lines 0 n c).mp h
    exact ⟨l, by rw [show n - 1 = j by omega]; exact hg, hc⟩
  · obtain ⟨j, l, hg, _, hn, hc⟩ :=
      (mem_collectFrom (fun l => es_comentada l && contieneDisplay l)
        lines 0 n c).mp h
    exact ⟨l, by rw [show n - 1 = j by omega]; exact hg, hc⟩

/-- Witness for C3 as amended at a concrete collected line. -/
theorem C3_collect_rstrip_w :
    ∃ l, ["      ** "].get? (1 - 1) = some l ∧ "      **" = pyRstrip l :=
  C3_collect_rstrip ["      ** "] 1 "      **" (Or.inl (by decide))

/-- Claim C4: the comment count dominates the collected list's length, and
the surplus is exactly the number of comment lines that are separators:
separators inflate the count but never the collected list. -/
theorem C4_count_includes_separators :
    ∀ (lines : List String),
    (obtener_lineas_comentadas lines).length ≤
      obtener_num_lineas_comentadas lines ∧
    obtener_num_lineas_comentadas lines =
      (obtener_lineas_comentadas lines).length +
        lines.countP (fun l => es_comentada l && es_separador l) := by
  intro lines
  have hlen : (obtener_lineas_comentadas lines).length =
      lines.countP (fun l => es_comentada l && !(es_separador l)) :=
    collectFrom_length _ lines 0
  have hsplit := countP_comentada_split lines
  unfold obtener_num_lineas_comentadas
  constructor
  · rw [hlen]; omega
  · rw [hlen]; omega

/-- Claim C5: the extractor emits one newline-joined block per matched
open/close label pair in opening order (refinement to the matched-pairs
view), a label-free input yields no block, and the three-line example
yields exactly its own join. -/
theorem C5_blocks_matched_pairs :
    (∀ texto, ext_bloq_comentados_patron_etiqueta texto =
      specBlocks (pySplitlines texto)) ∧
    (∀ ls, (∀ l ∈ ls, es_patron_etiqueta l = false) → ext_bloq_lineas ls = []) ∧
    ext_bloq_comentados_patron_etiqueta "**A*\nhello\n**B*" =
      ["**A*\nhello\n**B*"] := by
  refine ⟨fun texto => ext_bloq_lineas_eq_specBlocks _, fun ls h => ?_, by decide⟩
  exact extLoop_nolabel ls h [] [] false

/-- Witness for C5 at a concrete label-free input. -/
theorem C5_blocks_matched_pairs_w : ext_bloq_lineas ["hello", "world"] = [] :=
  C5_blocks_matched_pairs.2.1 ["hello", "world"] (by decide)

/-- Claim C6: the label-pattern test holds exactly when the trimmed line is
marker, marker, one ASCII letter of either case, marker and nothing else;
the four concrete examples behave as stated. -/
theorem C6_label_pattern_exact :
    (∀ s, es_patron_etiqueta s = true ↔
      ∃ c, c.isAlpha = true ∧ pyStrip s = String.mk ['*', '*', c, '*']) ∧
    es_patron_etiqueta "**Z*" = true ∧
    es_patron_etiqueta "**ZZ*" = false ∧
    es_patron_etiqueta "*Z*" = false ∧
    es_patron_etiqueta "**1*" = false :=
  ⟨es_patron_etiqueta_iff, by decide, by decide, by decide, by decide⟩

/-- Witness for C6: a lowercase label built from the characterisation. -/
theorem C6_label_pattern_exact_w : es_patron_etiqueta "  **q*  " = true :=
  (C6_label_pattern_exact.1 "  **q*  ").mpr ⟨'q', by decide, by decide⟩

/-- Claim C7: a pair is in `obtener_lineas_comentadas` exactly when its line
number is one more than the 0-based position of a line longer than six
characters whose offset-6 character is the marker and which is not a
separator, carrying that line rstripped; numbers are strictly increasing. -/
theorem C7_collect_characterisation :
    (∀ (lines : List String) (n : Nat) (c : String),
      (n, c) ∈ obtener_lineas_comentadas lines ↔
      ∃ j l, lines.get? j = some l ∧ n = j + 1 ∧ 6 < l.length ∧
        charAt? l 6 = some '*' ∧ es_separador l = false ∧ c = pyRstrip l) ∧
    (∀ lines,
      (obtener_lineas_comentadas lines).Pairwise (fun a b => a.1 < b.1)) := by
  constructor
  · intro lines n c
    rw [show obtener_lineas_comentadas lines =
      collectFrom (fun l => es_comentada l && !(es_separador l)) 0 lines
      from rfl, mem_collectFrom]
    constructor
    · rintro ⟨j, l, hg, hp, hn, hc⟩
      rw [Bool.and_eq_true, Bool.not_eq_true'] at hp
      obtain ⟨hcom, hsep⟩ := hp
      simp only [es_comentada, Bool.and_eq_true, decide_eq_true_eq,
        beq_iff_eq] at hcom
      exact ⟨j, l, hg, by omega, hcom.1, hcom.2, hsep, hc⟩
    · rintro ⟨j, l, hg, hn, hlen, hstar, hsep, hc⟩
      refine ⟨j, l, hg, ?_, by omega, hc⟩
      rw [Bool.and_eq_true, Bool.not_eq_true']
      refine ⟨?_, hsep⟩
      simp only [es_comentada, Bool.and_eq_true, decide_eq_true_eq, beq_iff_eq]
      exact ⟨hlen, hstar⟩
  · intro lines
    exact collectFrom_pairwise _ lines 0

/-- Witness for C7 at a concrete commented line. -/
theorem C7_collect_characterisation_w :
    (1, "      * nota") ∈ obtener_lineas_comentadas ["      * nota"] :=
  (C7_collect_characterisation.1 ["      * nota"] 1 "      * nota").mpr
    ⟨0, "      * nota", by decide⟩

/-- Claim C8: a pair is in `obtener_lineas_comentadas_con_display` exactly
when its line passes the comment test and contains the token case-
insensitively; containment means a contiguous segment of the whole line
uppercases to `DISPLAY`; output keeps input order, and the `display` /
`DISPLAY` / `Display` variants all match. -/
theorem C8_display_characterisation :
    (∀ (lines : List String) (n : Nat) (c : String),
      (n, c) ∈ obtener_lineas_comentadas_con_display lines ↔
      ∃ j l, lines.get? j = some l ∧ n = j + 1 ∧ 6 < l.length ∧
        charAt? l 6 = some '*' ∧ contieneDisplay l = true ∧ c = pyRstrip l) ∧
    (∀ l, contieneDisplay l = true ↔ ∃ pre mid post,
      l.toList = pre ++ mid ++ post ∧
      mid.map Char.toUpper = "DISPLAY".toList) ∧
    (∀ lines, (obtener_lineas_comentadas_con_display lines).Pairwise
      (fun a b => a.1 < b.1)) ∧
    (obtener_lineas_comentadas_con_display
      ["      * display x", "      * DISPLAY x", "      * Display x"]).map
        Prod.fst = [1, 2, 3] := by
  refine ⟨?_, contieneDisplay_iff, fun lines => collectFrom_pairwise _ lines 0,
    by decide⟩
  intro lines n c
  rw [show obtener_lineas_comentadas_con_display lines =
    collectFrom (fun l => es_comentada l && contieneDisplay l) 0 lines
    from rfl, mem_collectFrom]
  constructor
  · rintro ⟨j, l, hg, hp, hn, hc⟩
    rw [Bool.and_eq_true] at hp
    obtain ⟨hcom, hdisp⟩ := hp
    simp only [es_comentada, Bool.and_eq_true, decide_eq_true_eq,
      beq_iff_eq] at hcom
    exact ⟨j, l, hg, by omega, hcom.1, hcom.2, hdisp, hc⟩
  · rintro ⟨j, l, hg, hn, hlen, hstar, hdisp, hc⟩
    refine ⟨j, l, hg, ?_, by omega, hc⟩
    rw [Bool.and_eq_true]
    refine ⟨?_, hdisp⟩
    simp only [es_comentada, Bool.and_eq_true, decide_eq_true_eq, beq_iff_eq]
    exact ⟨hlen, hstar⟩

/-- Witness for C8 at a concrete lowercase-display line. -/
theorem C8_display_characterisation_w :
    (1, "      * display x") ∈
      obtener_lineas_comentadas_con_display ["      * display x"] :=
  (C8_display_characterisation.1 ["      * display x"] 1
    "      * display x").mpr ⟨0, "      * display x", by decide⟩

/-- Claim C9: the classifier and collector operations are total: with every
character index access modelled through `Option` (where `none` is Python's
`IndexError`), each operation returns `some` of its plain value on every
input, because each access sits behind a length guard. The label test and
the block extractor perform no index access at all. -/
theorem C9_total_guarded_access :
    (∀ s, es_separador_chk s = some (es_separador s)) ∧
    (∀ ls, obtener_lineas_comentadas_chk ls =
      some (obtener_lineas_comentadas ls)) ∧
    (∀ ls, obtener_num_lineas_comentadas_chk ls =
      some (obtener_num_lineas_comentadas ls)) ∧
    (∀ ls, obtener_lineas_comentadas_con_display_chk ls =
      some (obtener_lineas_comentadas_con_display ls)) := by
  refine ⟨es_separador_chk_eq, fun ls => ?_, fun ls => ?_, fun ls => ?_⟩
  · exact collectChkFrom_eq _ _ lineaComentadaNoSep_chk_eq ls 0
  · exact countChkFrom_eq _ _ es_comentada_chk_eq ls
  · exact collectChkFrom_eq _ _ lineaComentadaDisplay_chk_eq ls 0

/-- Claim C10: every emitted block joins an opening label line, interior
non-label lines and a closing label line (hence at least two lines), and
the number of blocks is the number of label-pattern lines halved, rounding
down. -/
theorem C10_block_invariants :
    (∀ (ls : List String), ∀ b ∈ ext_bloq_lineas ls, ∃ op mid cl,
      b = joinNL (op :: (mid ++ [cl])) ∧ es_patron_etiqueta op = true ∧
      es_patron_etiqueta cl = true ∧
      ∀ l ∈ mid, es_patron_etiqueta l = false) ∧
    (∀ (texto : String), (ext_bloq_comentados_patron_etiqueta texto).length =
      (pySplitlines texto).countP es_patron_etiqueta / 2) := by
  constructor
  · intro ls b hb
    rw [ext_bloq_lineas_eq_specBlocks] at hb
    exact specBlocks_shape ls.length ls (Nat.le_refl _) b hb
  · intro texto
    unfold ext_bloq_comentados_patron_etiqueta
    rw [ext_bloq_lineas_eq_specBlocks]
    exact specBlocks_length (pySplitlines texto).length _ (Nat.le_refl _)

/-- Witness for C10 at a concrete extracted block. -/
theorem C10_block_invariants_w :
    ∃ op mid cl, "**A*\nx\n**B*" = joinNL (op :: (mid ++ [cl])) ∧
      es_patron_etiqueta op = true ∧ es_patron_etiqueta cl = true ∧
      ∀ l ∈ mid, es_patron_etiqueta l = false :=
  C10_block_invariants.1 ["**A*", "x", "**B*"] "**A*\nx\n**B*" (by decide)
